import Mathlib

/-
Verification of the binary-tree node core of `pherval/elementary-js-structures`.

The TypeScript class `BinaryTreeNode<T>` builds a graph of mutable node
objects linked by `father`, `left` and `right` references, and several of its
methods (`ancestor`, `descendant`, `isLeft`, `isRight`, `brother`) compare
nodes by reference identity (`===`).  We embed this as a heap: a list of node
records addressed by their index (the node id), where an `Option Nat` models a
reference that may be `null`.  Object identity becomes identity of ids, and
mutation becomes a functional update of the heap.  Each definition below is a
direct transcription of the corresponding member of
`BinaryTreeNode` (src/unnamed/part_000) or of the `TraversalMethod` enum
(src/src/tree/types.ts).
-/

namespace ElementaryJS

/-- A single `BinaryTreeNode` object: payload, the three references
(`null` modelled by `none`) and the cached level, exactly the private fields
`#data`, `#father`, `#left`, `#right`, `#level` of the class. -/
structure Node (T : Type) where
  data : T
  father : Option Nat
  left : Option Nat
  right : Option Nat
  level : Nat
deriving Repr, DecidableEq

/-- The object heap: node objects addressed by creation index. -/
abbrev Heap (T : Type) := List (Node T)

/-- Dereference `n.father` through the heap (the `father` getter). -/
def fatherOf (h : Heap T) (n : Nat) : Option Nat :=
  (h[n]?).bind Node.father

/-- Dereference `n.left` through the heap (the `left` getter). -/
def leftOf (h : Heap T) (n : Nat) : Option Nat :=
  (h[n]?).bind Node.left

/-- Dereference `n.right` through the heap (the `right` getter). -/
def rightOf (h : Heap T) (n : Nat) : Option Nat :=
  (h[n]?).bind Node.right

/-- Dereference `n.level()` through the heap (the cached `#level` field). -/
def levelOf (h : Heap T) (n : Nat) : Option Nat :=
  (h[n]?).map Node.level

/-- The error class `InvalidInsertion` (the spec calls it DuplicateSlot),
thrown by `insertLeft` / `insertRight` on an occupied slot. -/
inductive InvalidInsertion where
  | mk
deriving Repr, DecidableEq

/-- Message carried by the error, from the `InvalidInsertion` constructor. -/
def InvalidInsertion.message : InvalidInsertion → String
  | .mk => "invalid tree insertion. Node already exists"

/-- The constructor `new BinaryTreeNode(data)`: allocates a fresh node with
no subtrees, no father and level `0`; returns the updated heap and the id of
the new object. -/
def newNode (h : Heap T) (d : T) : Heap T × Nat :=
  (h ++ [⟨d, none, none, none, 0⟩], h.length)

/-- Method `insertLeft(data)` called on node `self`.  Mirrors the source: if
`this.left` is truthy it throws `InvalidInsertion` (state untouched),
otherwise it allocates `new BinaryTreeNode(data)`, stores it in `this.#left`,
sets the child's `#father` to `this` and its `#level` to `this.level() + 1`,
and returns `this`.  The pair holds the heap after the call and the normal
return value (the receiver's id) or the thrown error.  A `none` receiver
cannot occur in the source (`this` is always an object); for an out-of-range
id we return the heap unchanged with the error. -/
def insertLeft (h : Heap T) (self : Nat) (d : T) :
    Heap T × Except InvalidInsertion Nat :=
  match h[self]? with
  | none => (h, .error .mk)
  | some nd =>
    match nd.left with
    | some _ => (h, .error .mk)
    | none =>
      ((h.set self { nd with left := some h.length }) ++
        [⟨d, some self, none, none, nd.level + 1⟩], .ok self)

/-- Method `insertRight(data)` called on node `self`; mirror image of
`insertLeft` acting on the `right` slot. -/
def insertRight (h : Heap T) (self : Nat) (d : T) :
    Heap T × Except InvalidInsertion Nat :=
  match h[self]? with
  | none => (h, .error .mk)
  | some nd =>
    match nd.right with
    | some _ => (h, .error .mk)
    | none =>
      ((h.set self { nd with right := some h.length }) ++
        [⟨d, some self, none, none, nd.level + 1⟩], .ok self)

/-- Method `isRoot()`: `this.#father === null`. -/
def isRoot (h : Heap T) (n : Nat) : Bool :=
  (fatherOf h n).isNone

/-- Method `isLeaf()`: `this.left === null && this.right === null`. -/
def isLeaf (h : Heap T) (n : Nat) : Bool :=
  (leftOf h n).isNone && (rightOf h n).isNone

/-- Method `isLeft()`: `this.father?.left === this` (`undefined === this` is
false when the father is `null`). -/
def isLeft (h : Heap T) (n : Nat) : Bool :=
  match fatherOf h n with
  | none => false
  | some f => decide (leftOf h f = some n)

/-- Method `isRight()`: `this.father?.right === this`. -/
def isRight (h : Heap T) (n : Nat) : Bool :=
  match fatherOf h n with
  | none => false
  | some f => decide (rightOf h f = some n)

/-- Getter `brother`: `null` when fatherless, else the father's `right` when
`this.isLeft()`, else the father's `left`. -/
def brother (h : Heap T) (n : Nat) : Option Nat :=
  match fatherOf h n with
  | none => none
  | some f => if isLeft h n then rightOf h f else leftOf h f

/-- Loop body of the `root` getter: follow `father` while it is not `null`.
The fuel argument only bounds the iteration count so that the definition is
total; `rootOf` supplies enough fuel for every well-formed heap. -/
def rootGo (h : Heap T) : Nat → Nat → Option Nat
  | 0, _ => none
  | fuel + 1, n =>
    match fatherOf h n with
    | none => some n
    | some f => rootGo h fuel f

/-- Getter `root`: walk up the `father` chain until a fatherless node.  On a
well-formed heap every `father` id is smaller than its child's id, so `n + 1`
steps always suffice. -/
def rootOf (h : Heap T) (n : Nat) : Option Nat :=
  rootGo h (n + 1) n

/-- Loop of `ancestor(tree)`: `node` starts at `this.father` and climbs;
returns true as soon as `node === tree`.  The candidate may be `null`, in
which case the comparison never succeeds (the loop runs only over non-null
nodes). -/
def ancestorGo (h : Heap T) (target : Option Nat) : Nat → Option Nat → Bool
  | _, none => false
  | 0, some _ => false
  | fuel + 1, some m =>
    if target = some m then true
    else ancestorGo h target fuel (fatherOf h m)

/-- Method `ancestor(tree)`: climb the father chain starting at
`this.father`; true iff the candidate reference is met.  On a well-formed
heap ids strictly decrease along the chain, so `h.length` steps suffice. -/
def ancestor (h : Heap T) (self : Nat) (target : Option Nat) : Bool :=
  ancestorGo h target h.length (fatherOf h self)

/-- The pushes performed for one popped non-null node in `descendant`:
`if (node?.left) visited.push(node.left); if (node?.right)
visited.push(node.right)` — in push order, left before right, and only
non-null children. -/
def childPushes (h : Heap T) (m : Nat) : List (Option Nat) :=
  match h[m]? with
  | none => []
  | some nd =>
    (match nd.left with | none => [] | some l => [some l]) ++
    (match nd.right with | none => [] | some r => [some r])

/-- The pushes caused by popping `node`: none for a popped null reference,
and the non-null children of a popped node. -/
def popPushes (h : Heap T) (node : Option Nat) : List (Option Nat) :=
  match node with
  | none => []
  | some m => childPushes h m

/-- Loop of `descendant(tree)`: pop the stack (head of the list is the top),
compare the popped reference with the candidate by `===`, and push the
non-null children of a popped non-null node (left first, so the right child
ends on top).  Fuel only bounds the iteration count. -/
def descGo (h : Heap T) (target : Option Nat) : Nat → List (Option Nat) → Bool
  | 0, _ => false
  | _ + 1, [] => false
  | fuel + 1, node :: rest =>
    if node = target then true
    else descGo h target fuel ((popPushes h node).reverse ++ rest)

/-- Method `descendant(tree)`: the explicit-stack search seeded by pushing
`this.left` then `this.right` (both pushed unconditionally, even when
`null`).  `3 ^ (h.length + 1)` exceeds the number of loop iterations on any
well-formed heap, so the fuel never runs out there. -/
def descendant (h : Heap T) (self : Nat) (target : Option Nat) : Bool :=
  match h[self]? with
  | none => false
  | some nd => descGo h target (3 ^ (h.length + 1)) [nd.right, nd.left]

/-- Instrumented copy of the `descendant` loop that also records every value
passed to `visited.push`, in push order, after the two seed pushes already in
the log.  Its boolean component coincides with `descGo`
(`descGoLog_fst`). -/
def descGoLog (h : Heap T) (target : Option Nat) :
    Nat → List (Option Nat) → List (Option Nat) → Bool × List (Option Nat)
  | 0, _, log => (false, log)
  | _ + 1, [], log => (false, log)
  | fuel + 1, node :: rest, log =>
    if node = target then (true, log)
    else
      descGoLog h target fuel ((popPushes h node).reverse ++ rest)
        (log ++ popPushes h node)

/-- Instrumented `descendant`: result together with the full list of values
pushed onto the explicit stack, in push order (the two seeds
`this.left`, `this.right` first). -/
def descendantLog (h : Heap T) (self : Nat) (target : Option Nat) :
    Bool × List (Option Nat) :=
  match h[self]? with
  | none => (false, [])
  | some nd =>
    descGoLog h target (3 ^ (h.length + 1)) [nd.right, nd.left]
      [nd.left, nd.right]

/-- Every value ever pushed onto the explicit stack of `descendant`. -/
def descendantPushes (h : Heap T) (self : Nat) (target : Option Nat) :
    List (Option Nat) :=
  (descendantLog h self target).2

/-- One parent-to-child link step in the heap. -/
def childStep (h : Heap T) (p c : Nat) : Prop :=
  leftOf h p = some c ∨ rightOf h p = some c

/-- One child-to-parent link step in the heap. -/
def fatherStep (h : Heap T) (a b : Nat) : Prop :=
  fatherOf h a = some b

instance (h : Heap T) (p c : Nat) : Decidable (childStep h p c) := by
  unfold childStep; infer_instance

instance (h : Heap T) (a b : Nat) : Decidable (fatherStep h a b) := by
  unfold fatherStep; infer_instance

/-- Option combinator: test that the option holds a value and that the value
passes the check. -/
def optCheck (o : Option α) (g : α → Bool) : Bool :=
  match o with
  | none => false
  | some a => g a

/-- Option combinator: test that the value, when present, passes the check. -/
def optAll (o : Option α) (g : α → Bool) : Bool :=
  match o with
  | none => true
  | some a => g a

@[simp] theorem optCheck_eq_true {o : Option α} {g : α → Bool} :
    optCheck o g = true ↔ ∃ a, o = some a ∧ g a = true := by
  cases o <;> simp [optCheck]

@[simp] theorem optAll_eq_true {o : Option α} {g : α → Bool} :
    optAll o g = true ↔ ∀ a, o = some a → g a = true := by
  cases o <;> simp [optAll]

/-- Back-link check used by `nodeOk`: the claimed father `f` of `n` really
stores `n` in one of its two slots. -/
def backLink (h : Heap T) (n : Nat) (f : Nat) : Bool :=
  optCheck h[f]? fun fd => decide (fd.left = some n) || decide (fd.right = some n)

/-- Forward-link check used by `nodeOk`: the child `c` of `n` is a later
object of the heap whose `father` points back at `n`. -/
def slotOk (h : Heap T) (n : Nat) (c : Nat) : Bool :=
  decide (n < c) && optCheck h[c]? fun cd => decide (cd.father = some n)

/-- Well-formedness of one node of the heap: the `father` reference points to
an earlier object holding this node in a slot, each child slot points to a
later object whose `father` points back, and the two slots never hold the
same object. -/
def nodeOk (h : Heap T) (n : Nat) (nd : Node T) : Bool :=
  optAll nd.father (fun f => decide (f < n) && backLink h n f) &&
  optAll nd.left (fun l => slotOk h n l && decide (nd.right ≠ some l)) &&
  optAll nd.right (fun r => slotOk h n r)

/-- Well-formedness of the heap: every node object is well linked.  Every
heap reachable from `newNode` / `insertLeft` / `insertRight` satisfies this;
it is the heap-embedding counterpart of "the objects form a forest of
`BinaryTreeNode` trees". -/
def wf (h : Heap T) : Bool :=
  (List.range h.length).all fun n => optCheck h[n]? (nodeOk h n)

/-- Level bookkeeping for one child slot: an occupied slot holds a node whose
cached level is one more than the given level. -/
def slotLevelOk (h : Heap T) (lv : Nat) (slot : Option Nat) : Bool :=
  optAll slot fun c => optCheck h[c]? fun cd => decide (cd.level = lv + 1)

/-- Level consistency of one node: a fatherless (root) node has level `0`,
and each existing child has level one greater. -/
def nodeLevelOk (h : Heap T) (nd : Node T) : Bool :=
  decide (nd.father = none → nd.level = 0) &&
  slotLevelOk h nd.level nd.left &&
  slotLevelOk h nd.level nd.right

/-- Level consistency of the whole heap, the invariant of claim C6. -/
def levelConsistent (h : Heap T) : Bool :=
  (List.range h.length).all fun n => optCheck h[n]? (nodeLevelOk h)

/-- Weight of one stack entry, used to bound the number of iterations of the
`descendant` loop: popping a node pushes children with strictly larger ids,
whose total weight is strictly smaller. -/
def owt (h : Heap T) : Option Nat → Nat
  | none => 1
  | some m => 3 ^ (h.length - m)

/-- Total weight of a stack of the `descendant` loop. -/
def smeasure (h : Heap T) (s : List (Option Nat)) : Nat :=
  (s.map (owt h)).sum

/-- The TypeScript `TraversalMethod` enum of src/src/tree/types.ts.  TS enum
members are numbers; `PREORDER = 0` resets the counter, so the five names
denote only three distinct values. -/
abbrev TraversalMethod := Nat

namespace TraversalMethod

/-- Enum member `ASC` (first member, value 0). -/
def ASC : TraversalMethod := 0

/-- Enum member `DESC` (second member, value 1). -/
def DESC : TraversalMethod := 1

/-- Enum member `PREORDER` (explicitly `= 0`). -/
def PREORDER : TraversalMethod := 0

/-- Enum member `POSTORDER` (auto-increments after `PREORDER = 0`). -/
def POSTORDER : TraversalMethod := 1

/-- Enum member `INORDER` (auto-increments, value 2). -/
def INORDER : TraversalMethod := 2

end TraversalMethod

/-- Modelled from the spec: the repository ships only the `Traversable`
interface and the `TraversalMethod` enum in src; the traversal engine's
implementation is not among the source files.  Following section 4.3 of the
spec, trees are plain binary trees. -/
inductive BTree (T : Type) where
  | nil
  | node (left : BTree T) (data : T) (right : BTree T)
deriving Repr, DecidableEq

/-- Modelled from the spec: PREORDER order — visit-self, recurse-left,
recurse-right. -/
def preorder : BTree T → List T
  | .nil => []
  | .node l d r => d :: (preorder l ++ preorder r)

/-- Modelled from the spec: INORDER order — recurse-left, visit-self,
recurse-right. -/
def inorder : BTree T → List T
  | .nil => []
  | .node l d r => inorder l ++ d :: inorder r

/-- Modelled from the spec: POSTORDER order — recurse-left, recurse-right,
visit-self. -/
def postorder : BTree T → List T
  | .nil => []
  | .node l d r => postorder l ++ postorder r ++ [d]

/-- Modelled from the spec: `traverse(callback, method)` "dispatches to the
correct order".  A dispatch can only inspect the numeric value of the enum
member, so it compares against the three order names `PREORDER`,
`POSTORDER`, `INORDER` (values 0, 1, 2). -/
def traverse (t : BTree T) (method : TraversalMethod) : List T :=
  if method = TraversalMethod.PREORDER then preorder t
  else if method = TraversalMethod.POSTORDER then postorder t
  else inorder t

/-- A validly ordered three-node search tree: root 5, left child 3, right
child 8. -/
def demoTree : BTree Nat := .node (.node .nil 3 .nil) 5 (.node .nil 8 .nil)

/-- The same three-node tree as a heap of `BinaryTreeNode` objects: object 0
is the root holding 5, object 1 its left child holding 3, object 2 its right
child holding 8. -/
def demoHeap : Heap Nat :=
  [⟨5, none, some 1, some 2, 0⟩,
   ⟨3, some 0, none, none, 1⟩,
   ⟨8, some 0, none, none, 1⟩]

/-- A two-object heap: the root (object 0, payload 10) has a left child
(object 1, payload 20) and an empty right slot. -/
def ceHeap : Heap Nat :=
  [⟨10, none, some 1, none, 0⟩,
   ⟨20, some 0, none, none, 1⟩]

/-! Basic unfolding lemmas for the accessors. -/

theorem fatherOf_eq (h : Heap T) (n : Nat) (nd : Node T) (hn : h[n]? = some nd) :
    fatherOf h n = nd.father := by
  simp [fatherOf, hn]

theorem leftOf_eq (h : Heap T) (n : Nat) (nd : Node T) (hn : h[n]? = some nd) :
    leftOf h n = nd.left := by
  simp [leftOf, hn]

theorem rightOf_eq (h : Heap T) (n : Nat) (nd : Node T) (hn : h[n]? = some nd) :
    rightOf h n = nd.right := by
  simp [rightOf, hn]

theorem levelOf_eq (h : Heap T) (n : Nat) (nd : Node T) (hn : h[n]? = some nd) :
    levelOf h n = some nd.level := by
  simp [levelOf, hn]

theorem fatherOf_some (h : Heap T) {n f : Nat} (hf : fatherOf h n = some f) :
    ∃ nd, h[n]? = some nd ∧ nd.father = some f := by
  simpa [fatherOf, Option.bind_eq_some] using hf

theorem leftOf_some (h : Heap T) {n l : Nat} (hf : leftOf h n = some l) :
    ∃ nd, h[n]? = some nd ∧ nd.left = some l := by
  simpa [leftOf, Option.bind_eq_some] using hf

theorem rightOf_some (h : Heap T) {n r : Nat} (hf : rightOf h n = some r) :
    ∃ nd, h[n]? = some nd ∧ nd.right = some r := by
  simpa [rightOf, Option.bind_eq_some] using hf

/-! Extraction lemmas from the `wf` invariant. -/

/-- Unfolded characterization of `nodeOk`, used for both directions. -/
theorem nodeOk_iff {h : Heap T} {n : Nat} {nd : Node T} :
    nodeOk h n nd = true ↔
      (∀ f, nd.father = some f → f < n ∧
        ∃ fd, h[f]? = some fd ∧ (fd.left = some n ∨ fd.right = some n)) ∧
      (∀ l, nd.left = some l → n < l ∧ nd.right ≠ some l ∧
        ∃ ld, h[l]? = some ld ∧ ld.father = some n) ∧
      (∀ r, nd.right = some r → n < r ∧
        ∃ rd, h[r]? = some rd ∧ rd.father = some n) := by
  simp only [nodeOk, Bool.and_eq_true, optAll_eq_true, backLink, slotOk,
    optCheck_eq_true, Bool.or_eq_true, decide_eq_true_eq]
  constructor
  · rintro ⟨⟨h1, h2⟩, h3⟩
    refine ⟨fun f hf => ?_, fun l hl => ?_, fun r hr => ?_⟩
    · obtain ⟨hlt, fd, hfd, hor⟩ := h1 f hf
      exact ⟨hlt, fd, hfd, hor⟩
    · obtain ⟨⟨hlt, ld, hld, hfa⟩, hne⟩ := h2 l hl
      exact ⟨hlt, hne, ld, hld, hfa⟩
    · obtain ⟨hlt, rd, hrd, hfa⟩ := h3 r hr
      exact ⟨hlt, rd, hrd, hfa⟩
  · rintro ⟨h1, h2, h3⟩
    refine ⟨⟨fun f hf => ?_, fun l hl => ?_⟩, fun r hr => ?_⟩
    · obtain ⟨hlt, fd, hfd, hor⟩ := h1 f hf
      exact ⟨hlt, fd, hfd, hor⟩
    · obtain ⟨hlt, hne, ld, hld, hfa⟩ := h2 l hl
      exact ⟨⟨hlt, ld, hld, hfa⟩, hne⟩
    · obtain ⟨hlt, rd, hrd, hfa⟩ := h3 r hr
      exact ⟨hlt, rd, hrd, hfa⟩

/-- Per-node characterization of an all-nodes boolean check over the heap. -/
theorem rangeAll_iff {h : Heap T} {g : Nat → Node T → Bool} :
    ((List.range h.length).all fun n => optCheck h[n]? (g n)) = true ↔
      ∀ n nd, h[n]? = some nd → g n nd = true := by
  simp only [List.all_eq_true, List.mem_range, optCheck_eq_true]
  constructor
  · intro hw n nd hn
    obtain ⟨nd', hn', hok⟩ := hw n (List.getElem?_eq_some.mp hn).1
    rw [hn] at hn'
    cases hn'
    exact hok
  · intro hw n hlt
    obtain ⟨nd, hn⟩ : ∃ nd, h[n]? = some nd :=
      ⟨_, List.getElem?_eq_getElem hlt⟩
    exact ⟨nd, hn, hw n nd hn⟩

/-- Unfolded characterization of `wf`. -/
theorem wf_iff {h : Heap T} :
    wf h = true ↔ ∀ n nd, h[n]? = some nd → nodeOk h n nd = true := by
  unfold wf; exact @rangeAll_iff T h (nodeOk h)

/-- Unfolded characterization of `levelConsistent`. -/
theorem levelConsistent_iff {h : Heap T} :
    levelConsistent h = true ↔
      ∀ (n : Nat) nd, h[n]? = some nd → nodeLevelOk h nd = true := by
  unfold levelConsistent; exact @rangeAll_iff T h (fun _ => nodeLevelOk h)

/-- Unfolded characterization of `nodeLevelOk`. -/
theorem nodeLevelOk_iff {h : Heap T} {nd : Node T} :
    nodeLevelOk h nd = true ↔
      (nd.father = none → nd.level = 0) ∧
      (∀ l, nd.left = some l →
        ∃ ld, h[l]? = some ld ∧ ld.level = nd.level + 1) ∧
      (∀ r, nd.right = some r →
        ∃ rd, h[r]? = some rd ∧ rd.level = nd.level + 1) := by
  simp only [nodeLevelOk, slotLevelOk, Bool.and_eq_true, optAll_eq_true,
    optCheck_eq_true, decide_eq_true_eq, and_assoc]

theorem wf_node {h : Heap T} (hwf : wf h = true) {n : Nat} {nd : Node T}
    (hn : h[n]? = some nd) : nodeOk h n nd = true :=
  wf_iff.mp hwf n nd hn

theorem wf_father {h : Heap T} (hwf : wf h = true) {n f : Nat}
    (hf : fatherOf h n = some f) : f < n ∧ childStep h f n := by
  obtain ⟨nd, hn, hfa⟩ := fatherOf_some h hf
  obtain ⟨hlt, fd, hfd, hor⟩ := (nodeOk_iff.mp (wf_node hwf hn)).1 f hfa
  refine ⟨hlt, ?_⟩
  cases hor with
  | inl hl => exact Or.inl (by rw [leftOf_eq h f fd hfd]; exact hl)
  | inr hr => exact Or.inr (by rw [rightOf_eq h f fd hfd]; exact hr)

theorem wf_father_valid {h : Heap T} (hwf : wf h = true) {n f : Nat}
    (hf : fatherOf h n = some f) : f < h.length := by
  have hcs := (wf_father hwf hf).2
  cases hcs with
  | inl hl => obtain ⟨fd, hff, -⟩ := leftOf_some h hl
              exact (List.getElem?_eq_some.mp hff).1
  | inr hr => obtain ⟨fd, hff, -⟩ := rightOf_some h hr
              exact (List.getElem?_eq_some.mp hff).1

theorem wf_child {h : Heap T} (hwf : wf h = true) {p c : Nat}
    (hc : childStep h p c) :
    p < c ∧ c < h.length ∧ fatherOf h c = some p := by
  cases hc with
  | inl hl =>
    obtain ⟨nd, hp, hls⟩ := leftOf_some h hl
    obtain ⟨hlt, -, ld, hld, hfa⟩ := (nodeOk_iff.mp (wf_node hwf hp)).2.1 c hls
    exact ⟨hlt, (List.getElem?_eq_some.mp hld).1,
      by rw [fatherOf_eq h c ld hld]; exact hfa⟩
  | inr hr =>
    obtain ⟨nd, hp, hrs⟩ := rightOf_some h hr
    obtain ⟨hlt, rd, hrd, hfa⟩ := (nodeOk_iff.mp (wf_node hwf hp)).2.2 c hrs
    exact ⟨hlt, (List.getElem?_eq_some.mp hrd).1,
      by rw [fatherOf_eq h c rd hrd]; exact hfa⟩

theorem wf_not_both {h : Heap T} (hwf : wf h = true) {p l : Nat}
    (hl : leftOf h p = some l) : rightOf h p ≠ some l := by
  obtain ⟨nd, hp, hls⟩ := leftOf_some h hl
  obtain ⟨-, hne, -⟩ := (nodeOk_iff.mp (wf_node hwf hp)).2.1 l hls
  rw [rightOf_eq h p nd hp]
  exact hne

/-- Along `fatherStep` the ids strictly decrease; hence the relation is
acyclic. -/
theorem transGen_fatherStep_lt {h : Heap T} (hwf : wf h = true) {a b : Nat}
    (hab : Relation.TransGen (fatherStep h) a b) : b < a := by
  induction hab with
  | single hs => exact (wf_father hwf hs).1
  | tail _ hs ih => exact lt_trans (wf_father hwf hs).1 ih

/-- Along `childStep` the ids strictly increase; hence no node is its own
proper descendant. -/
theorem transGen_childStep_lt {h : Heap T} (hwf : wf h = true) {a b : Nat}
    (hab : Relation.TransGen (childStep h) a b) : a < b := by
  induction hab with
  | single hs => exact (wf_child hwf hs).1
  | tail _ hs ih => exact lt_trans ih (wf_child hwf hs).1

/-! Lookup lemmas for the heap produced by a successful insertion, which has
the shape `(h.set self a) ++ [c]`. -/

theorem ins_length (h : Heap T) (self : Nat) (a c : Node T) :
    ((h.set self a) ++ [c]).length = h.length + 1 := by
  simp

theorem ins_get_old (h : Heap T) {self i : Nat} (a c : Node T)
    (hne : self ≠ i) (hi : i < h.length) :
    ((h.set self a) ++ [c])[i]? = h[i]? := by
  rw [List.getElem?_append]
  simp [List.length_set, hi, List.getElem?_set, hne]

theorem ins_get_self (h : Heap T) {self : Nat} (a c : Node T)
    (hself : self < h.length) :
    ((h.set self a) ++ [c])[self]? = some a := by
  rw [List.getElem?_append]
  simp [List.length_set, hself, List.getElem?_set]

theorem ins_get_new (h : Heap T) (self : Nat) (a c : Node T) :
    ((h.set self a) ++ [c])[h.length]? = some c := by
  have hl : (h.set self a).length = h.length := List.length_set h self a
  rw [← hl]
  exact List.getElem?_concat_length _ _

theorem append_get_old (h : Heap T) (c : Node T) {i : Nat}
    (hi : i < h.length) : (h ++ [c])[i]? = h[i]? := by
  rw [List.getElem?_append]
  simp [hi]

/-- Allocating a root node preserves level consistency. -/
theorem levelConsistent_newNode (h : Heap T) (d : T)
    (hlc : levelConsistent h = true) :
    levelConsistent (newNode h d).1 = true := by
  rw [levelConsistent_iff]
  intro n nd hn
  rw [newNode] at hn
  by_cases hi : n < h.length
  · rw [append_get_old h _ hi] at hn
    obtain ⟨o1, o2, o3⟩ := nodeLevelOk_iff.mp (levelConsistent_iff.mp hlc n nd hn)
    refine nodeLevelOk_iff.mpr ⟨o1, ?_, ?_⟩
    · intro l hl
      obtain ⟨ld, hld, hlv⟩ := o2 l hl
      exact ⟨ld, by
        rw [newNode, append_get_old h _ (List.getElem?_eq_some.mp hld).1]
        exact hld, hlv⟩
    · intro r hr
      obtain ⟨rd, hrd, hlv⟩ := o3 r hr
      exact ⟨rd, by
        rw [newNode, append_get_old h _ (List.getElem?_eq_some.mp hrd).1]
        exact hrd, hlv⟩
  · have hlen : n < h.length + 1 := by
      have := (List.getElem?_eq_some.mp hn).1
      simpa using this
    have hne : n = h.length := by omega
    subst hne
    rw [List.getElem?_concat_length] at hn
    cases hn
    exact nodeLevelOk_iff.mpr ⟨fun _ => rfl, by simp, by simp⟩

/-- Attaching a left child preserves level consistency. -/
theorem levelConsistent_insertLeft (h : Heap T) (self : Nat) (d : T)
    (hlc : levelConsistent h = true) :
    levelConsistent (insertLeft h self d).1 = true := by
  cases hs : h[self]? with
  | none => simpa [insertLeft, hs] using hlc
  | some nd =>
    cases hl : nd.left with
    | some x => simpa [insertLeft, hs, hl] using hlc
    | none =>
      have hselflt : self < h.length := (List.getElem?_eq_some.mp hs).1
      have hh : (insertLeft h self d).1 =
          (h.set self { nd with left := some h.length }) ++
            [⟨d, some self, none, none, nd.level + 1⟩] := by
        simp [insertLeft, hs, hl]
      rw [hh, levelConsistent_iff]
      intro n nd' hn
      have hP := levelConsistent_iff.mp hlc
      have hnlen : n < h.length + 1 := by
        have := (List.getElem?_eq_some.mp hn).1
        simpa using this
      by_cases hi : n < h.length
      · by_cases hns : n = self
        · subst hns
          rw [ins_get_self h _ _ hselflt] at hn
          cases hn
          obtain ⟨o1, -, o3⟩ := nodeLevelOk_iff.mp (hP n nd hs)
          refine nodeLevelOk_iff.mpr ⟨fun hf => o1 hf, ?_, ?_⟩
          · intro l hlx
            have hlL : l = h.length := by
              simpa using hlx.symm
            subst hlL
            exact ⟨_, ins_get_new h n _ _, rfl⟩
          · intro r hrx
            obtain ⟨rd, hrd, hlv⟩ := o3 r hrx
            have hrlt : r < h.length := (List.getElem?_eq_some.mp hrd).1
            by_cases hrs : r = n
            · subst hrs
              rw [hs] at hrd
              cases hrd
              omega
            · exact ⟨rd,
                by rw [ins_get_old h _ _ (fun e => hrs e.symm) hrlt]; exact hrd,
                hlv⟩
        · rw [ins_get_old h _ _ (fun e => hns e.symm) hi] at hn
          obtain ⟨o1, o2, o3⟩ := nodeLevelOk_iff.mp (hP n nd' hn)
          refine nodeLevelOk_iff.mpr ⟨o1, ?_, ?_⟩
          · intro l hlx
            obtain ⟨ld, hld, hlv⟩ := o2 l hlx
            have hllt : l < h.length := (List.getElem?_eq_some.mp hld).1
            by_cases hls : l = self
            · subst hls
              rw [hs] at hld
              cases hld
              exact ⟨_, ins_get_self h _ _ hselflt, hlv⟩
            · exact ⟨ld,
                by rw [ins_get_old h _ _ (fun e => hls e.symm) hllt]; exact hld,
                hlv⟩
          · intro r hr
            obtain ⟨rd, hrd, hlv⟩ := o3 r hr
            have hrlt : r < h.length := (List.getElem?_eq_some.mp hrd).1
            by_cases hrs : r = self
            · subst hrs
              rw [hs] at hrd
              cases hrd
              exact ⟨_, ins_get_self h _ _ hselflt, hlv⟩
            · exact ⟨rd,
                by rw [ins_get_old h _ _ (fun e => hrs e.symm) hrlt]; exact hrd,
                hlv⟩
      · have hne : n = h.length := by omega
        subst hne
        rw [ins_get_new] at hn
        cases hn
        refine nodeLevelOk_iff.mpr ⟨?_, ?_, ?_⟩ <;> simp

/-- Attaching a right child preserves level consistency. -/
theorem levelConsistent_insertRight (h : Heap T) (self : Nat) (d : T)
    (hlc : levelConsistent h = true) :
    levelConsistent (insertRight h self d).1 = true := by
  cases hs : h[self]? with
  | none => simpa [insertRight, hs] using hlc
  | some nd =>
    cases hr : nd.right with
    | some x => simpa [insertRight, hs, hr] using hlc
    | none =>
      have hselflt : self < h.length := (List.getElem?_eq_some.mp hs).1
      have hh : (insertRight h self d).1 =
          (h.set self { nd with right := some h.length }) ++
            [⟨d, some self, none, none, nd.level + 1⟩] := by
        simp [insertRight, hs, hr]
      rw [hh, levelConsistent_iff]
      intro n nd' hn
      have hP := levelConsistent_iff.mp hlc
      have hnlen : n < h.length + 1 := by
        have := (List.getElem?_eq_some.mp hn).1
        simpa using this
      by_cases hi : n < h.length
      · by_cases hns : n = self
        · subst hns
          rw [ins_get_self h _ _ hselflt] at hn
          cases hn
          obtain ⟨o1, o2, -⟩ := nodeLevelOk_iff.mp (hP n nd hs)
          refine nodeLevelOk_iff.mpr ⟨fun hf => o1 hf, ?_, ?_⟩
          · intro l hlx
            obtain ⟨ld, hld, hlv⟩ := o2 l hlx
            have hllt : l < h.length := (List.getElem?_eq_some.mp hld).1
            by_cases hls : l = n
            · subst hls
              rw [hs] at hld
              cases hld
              omega
            · exact ⟨ld,
                by rw [ins_get_old h _ _ (fun e => hls e.symm) hllt]; exact hld,
                hlv⟩
          · intro r hrx
            have hrL : r = h.length := by
              simpa using hrx.symm
            subst hrL
            exact ⟨_, ins_get_new h n _ _, rfl⟩
        · rw [ins_get_old h _ _ (fun e => hns e.symm) hi] at hn
          obtain ⟨o1, o2, o3⟩ := nodeLevelOk_iff.mp (hP n nd' hn)
          refine nodeLevelOk_iff.mpr ⟨o1, ?_, ?_⟩
          · intro l hlx
            obtain ⟨ld, hld, hlv⟩ := o2 l hlx
            have hllt : l < h.length := (List.getElem?_eq_some.mp hld).1
            by_cases hls : l = self
            · subst hls
              rw [hs] at hld
              cases hld
              exact ⟨_, ins_get_self h _ _ hselflt, hlv⟩
            · exact ⟨ld,
                by rw [ins_get_old h _ _ (fun e => hls e.symm) hllt]; exact hld,
                hlv⟩
          · intro r hrx
            obtain ⟨rd, hrd, hlv⟩ := o3 r hrx
            have hrlt : r < h.length := (List.getElem?_eq_some.mp hrd).1
            by_cases hrs : r = self
            · subst hrs
              rw [hs] at hrd
              cases hrd
              exact ⟨_, ins_get_self h _ _ hselflt, hlv⟩
            · exact ⟨rd,
                by rw [ins_get_old h _ _ (fun e => hrs e.symm) hrlt]; exact hrd,
                hlv⟩
      · have hne : n = h.length := by omega
        subst hne
        rw [ins_get_new] at hn
        cases hn
        refine nodeLevelOk_iff.mpr ⟨?_, ?_, ?_⟩ <;> simp

/-- Insertion never changes the cached level of an existing node. -/
theorem levelOf_insert_preserved (h : Heap T) (self : Nat) (d : T)
    {m : Nat} (hm : m < h.length) :
    levelOf (insertLeft h self d).1 m = levelOf h m ∧
    levelOf (insertRight h self d).1 m = levelOf h m := by
  constructor
  · cases hs : h[self]? with
    | none => simp [insertLeft, hs]
    | some nd =>
      cases hl : nd.left with
      | some x => simp [insertLeft, hs, hl]
      | none =>
        have hselflt : self < h.length := (List.getElem?_eq_some.mp hs).1
        have hh : (insertLeft h self d).1 =
            (h.set self { nd with left := some h.length }) ++
              [⟨d, some self, none, none, nd.level + 1⟩] := by
          simp [insertLeft, hs, hl]
        rw [hh]
        by_cases hms : m = self
        · subst hms
          rw [levelOf, ins_get_self h _ _ hselflt, levelOf, hs]
          rfl
        · rw [levelOf, ins_get_old h _ _ (fun e => hms e.symm) hm, levelOf]
  · cases hs : h[self]? with
    | none => simp [insertRight, hs]
    | some nd =>
      cases hr : nd.right with
      | some x => simp [insertRight, hs, hr]
      | none =>
        have hselflt : self < h.length := (List.getElem?_eq_some.mp hs).1
        have hh : (insertRight h self d).1 =
            (h.set self { nd with right := some h.length }) ++
              [⟨d, some self, none, none, nd.level + 1⟩] := by
          simp [insertRight, hs, hr]
        rw [hh]
        by_cases hms : m = self
        · subst hms
          rw [levelOf, ins_get_self h _ _ hselflt, levelOf, hs]
          rfl
        · rw [levelOf, ins_get_old h _ _ (fun e => hms e.symm) hm, levelOf]

/-- C1: `insertLeft` (resp. `insertRight`) throws `InvalidInsertion` exactly
when the targeted slot is occupied, and when it throws the heap — hence every
node's father, left, right and level — is left untouched. -/
theorem insert_error_iff_occupied {T : Type} (h : Heap T) (n : Nat)
    (nd : Node T) (d : T) (hn : h[n]? = some nd) :
    ((insertLeft h n d).2 = Except.error InvalidInsertion.mk ↔ nd.left ≠ none) ∧
    ((insertLeft h n d).2 = Except.error InvalidInsertion.mk →
      (insertLeft h n d).1 = h) ∧
    ((insertRight h n d).2 = Except.error InvalidInsertion.mk ↔ nd.right ≠ none) ∧
    ((insertRight h n d).2 = Except.error InvalidInsertion.mk →
      (insertRight h n d).1 = h) := by
  refine ⟨?_, ?_, ?_, ?_⟩
  · cases hl : nd.left <;> simp [insertLeft, hn, hl]
  · cases hl : nd.left <;> simp [insertLeft, hn, hl]
  · cases hr : nd.right <;> simp [insertRight, hn, hr]
  · cases hr : nd.right <;> simp [insertRight, hn, hr]

/-- Witness for C1 on the concrete three-node heap: node 0 has an occupied
left slot, so `insertLeft` reports the duplicate-slot error. -/
theorem insert_error_iff_occupied_witness :
    (insertLeft demoHeap 0 (99 : Nat)).2 = Except.error InvalidInsertion.mk ↔
      (some 1 : Option Nat) ≠ none :=
  (insert_error_iff_occupied demoHeap 0 ⟨5, none, some 1, some 2, 0⟩ 99 rfl).1

/-- C5: on an empty slot, `insertLeft` (resp. `insertRight`) allocates
exactly one new node holding the payload, with `father` the receiver and
`level` one more than the receiver's, attaches it to the slot, leaves every
other node untouched and returns the receiver itself. -/
theorem insert_success_spec {T : Type} (h : Heap T) (n : Nat)
    (nd : Node T) (d : T) (hn : h[n]? = some nd) :
    (nd.left = none →
      (insertLeft h n d).2 = Except.ok n ∧
      (insertLeft h n d).1.length = h.length + 1 ∧
      (insertLeft h n d).1[h.length]? =
        some ⟨d, some n, none, none, nd.level + 1⟩ ∧
      (insertLeft h n d).1[n]? = some { nd with left := some h.length } ∧
      ∀ m, m < h.length → m ≠ n → (insertLeft h n d).1[m]? = h[m]?) ∧
    (nd.right = none →
      (insertRight h n d).2 = Except.ok n ∧
      (insertRight h n d).1.length = h.length + 1 ∧
      (insertRight h n d).1[h.length]? =
        some ⟨d, some n, none, none, nd.level + 1⟩ ∧
      (insertRight h n d).1[n]? = some { nd with right := some h.length } ∧
      ∀ m, m < h.length → m ≠ n → (insertRight h n d).1[m]? = h[m]?) := by
  have hnlt : n < h.length := (List.getElem?_eq_some.mp hn).1
  constructor
  · intro hl
    have hh : (insertLeft h n d).1 =
        (h.set n { nd with left := some h.length }) ++
          [⟨d, some n, none, none, nd.level + 1⟩] := by
      simp [insertLeft, hn, hl]
    refine ⟨by simp [insertLeft, hn, hl], ?_, ?_, ?_, ?_⟩
    · rw [hh]; exact ins_length h n _ _
    · rw [hh]; exact ins_get_new h n _ _
    · rw [hh]; exact ins_get_self h _ _ hnlt
    · intro m hm hmn
      rw [hh]; exact ins_get_old h _ _ (fun e => hmn e.symm) hm
  · intro hr
    have hh : (insertRight h n d).1 =
        (h.set n { nd with right := some h.length }) ++
          [⟨d, some n, none, none, nd.level + 1⟩] := by
      simp [insertRight, hn, hr]
    refine ⟨by simp [insertRight, hn, hr], ?_, ?_, ?_, ?_⟩
    · rw [hh]; exact ins_length h n _ _
    · rw [hh]; exact ins_get_new h n _ _
    · rw [hh]; exact ins_get_self h _ _ hnlt
    · intro m hm hmn
      rw [hh]; exact ins_get_old h _ _ (fun e => hmn e.symm) hm

/-- Witness for C5 on the concrete heap: inserting 42 under leaf node 1
allocates object 3 with father 1 and level 2. -/
theorem insert_success_spec_witness :
    (insertLeft demoHeap 1 (42 : Nat)).1[3]? =
      some ⟨42, some 1, none, none, 2⟩ :=
  ((insert_success_spec demoHeap 1 ⟨3, some 0, none, none, 1⟩ 42 rfl).1
    rfl).2.2.1

/-- C6: level consistency is an invariant: a freshly constructed node is a
level-0 root, occupied slots hold nodes one level deeper, the constructor and
both insertions preserve the invariant, and no operation ever changes the
level of an existing node. -/
theorem level_invariant {T : Type} (h : Heap T)
    (hlc : levelConsistent h = true) :
    (∀ d : T, (newNode h d).1[(newNode h d).2]? =
      some ⟨d, none, none, none, 0⟩) ∧
    (∀ (n : Nat) (nd : Node T), h[n]? = some nd →
      (∀ l, nd.left = some l → levelOf h l = some (nd.level + 1)) ∧
      (∀ r, nd.right = some r → levelOf h r = some (nd.level + 1))) ∧
    (∀ d : T, levelConsistent (newNode h d).1 = true) ∧
    (∀ self d, levelConsistent (insertLeft h self d).1 = true ∧
      levelConsistent (insertRight h self d).1 = true) ∧
    (∀ self d m, m < h.length →
      levelOf (insertLeft h self d).1 m = levelOf h m ∧
      levelOf (insertRight h self d).1 m = levelOf h m ∧
      ∀ e : T, levelOf (newNode h e).1 m = levelOf h m) := by
  refine ⟨?_, ?_, ?_, ?_, ?_⟩
  · intro d
    exact List.getElem?_concat_length h _
  · intro n nd hn
    obtain ⟨-, o2, o3⟩ := nodeLevelOk_iff.mp (levelConsistent_iff.mp hlc n nd hn)
    constructor
    · intro l hl
      obtain ⟨ld, hld, hlv⟩ := o2 l hl
      rw [levelOf, hld]
      simp [hlv]
    · intro r hr
      obtain ⟨rd, hrd, hlv⟩ := o3 r hr
      rw [levelOf, hrd]
      simp [hlv]
  · intro d
    exact levelConsistent_newNode h d hlc
  · intro self d
    exact ⟨levelConsistent_insertLeft h self d hlc,
      levelConsistent_insertRight h self d hlc⟩
  · intro self d m hm
    refine ⟨(levelOf_insert_preserved h self d hm).1,
      (levelOf_insert_preserved h self d hm).2, ?_⟩
    intro e
    rw [newNode, levelOf, append_get_old h _ hm, levelOf]

/-- Witness for C6 on the concrete three-node heap: the left child of the
root sits one level below it. -/
theorem level_invariant_witness : levelOf demoHeap 1 = some 1 :=
  ((level_invariant demoHeap (by decide)).2.1 0
    ⟨5, none, some 1, some 2, 0⟩ rfl).1 1 rfl

/-! Lemmas for `brother`, `root` and `ancestor`. -/

theorem isLeft_of_father {h : Heap T} {n f : Nat}
    (hfo : fatherOf h n = some f) :
    isLeft h n = decide (leftOf h f = some n) := by
  simp [isLeft, hfo]

theorem brother_of_father {h : Heap T} {n f : Nat}
    (hfo : fatherOf h n = some f) :
    brother h n = if isLeft h n then rightOf h f else leftOf h f := by
  simp [brother, hfo]

/-- C7: `brother` is empty exactly when the node is a root or the opposite
slot of its father is empty, and otherwise returns the child of the father
occupying the slot opposite to the node's own. -/
theorem brother_spec {T : Type} (h : Heap T) (n : Nat) (nd : Node T)
    (hwf : wf h = true) (hn : h[n]? = some nd) :
    (∀ (f : Nat) (fd : Node T), nd.father = some f → h[f]? = some fd →
      (fd.left = some n → brother h n = fd.right) ∧
      (fd.right = some n → brother h n = fd.left)) ∧
    (brother h n = none ↔
      (nd.father = none ∨
        ∃ (f : Nat) (fd : Node T), nd.father = some f ∧ h[f]? = some fd ∧
          ((fd.left = some n ∧ fd.right = none) ∨
           (fd.right = some n ∧ fd.left = none)))) := by
  have hfo : fatherOf h n = nd.father := fatherOf_eq h n nd hn
  have main : ∀ (f : Nat) (fd : Node T), nd.father = some f → h[f]? = some fd →
      (fd.left = some n → brother h n = fd.right) ∧
      (fd.right = some n → brother h n = fd.left) := by
    intro f fd hf hfd
    have hfof : fatherOf h n = some f := hfo.trans hf
    have hlf : leftOf h f = fd.left := leftOf_eq h f fd hfd
    have hrf : rightOf h f = fd.right := rightOf_eq h f fd hfd
    constructor
    · intro hfl
      rw [brother_of_father hfof, isLeft_of_father hfof, hlf, hfl]
      simp [hrf]
    · intro hfr
      have hnl : fd.left ≠ some n := by
        intro hfl
        exact wf_not_both hwf (hlf.trans hfl) (hrf.trans hfr)
      rw [brother_of_father hfof, isLeft_of_father hfof, hlf]
      simp [hnl, hlf]
  refine ⟨main, ?_, ?_⟩
  · intro hb
    cases hfa : nd.father with
    | none => exact Or.inl rfl
    | some f =>
      refine Or.inr ?_
      have hfof : fatherOf h n = some f := hfo.trans hfa
      have hcs := (wf_father hwf hfof).2
      cases hcs with
      | inl hl =>
        obtain ⟨fd, hfd, hfl⟩ := leftOf_some h hl
        refine ⟨f, fd, rfl, hfd, Or.inl ⟨hfl, ?_⟩⟩
        have := (main f fd hfa hfd).1 hfl
        rw [this] at hb
        exact hb
      | inr hr =>
        obtain ⟨fd, hfd, hfr⟩ := rightOf_some h hr
        refine ⟨f, fd, rfl, hfd, Or.inr ⟨hfr, ?_⟩⟩
        have := (main f fd hfa hfd).2 hfr
        rw [this] at hb
        exact hb
  · intro hcase
    cases hcase with
    | inl hfa => simp [brother, hfo, hfa]
    | inr hex =>
      obtain ⟨f, fd, hfa, hfd, hor⟩ := hex
      cases hor with
      | inl hp => rw [(main f fd hfa hfd).1 hp.1]; exact hp.2
      | inr hp => rw [(main f fd hfa hfd).2 hp.1]; exact hp.2

/-- Witness for C7 on the concrete heap: node 2 is the right child of the
root, so its brother is the root's left child, node 1. -/
theorem brother_spec_witness : brother demoHeap 2 = some 1 :=
  ((brother_spec demoHeap 2 ⟨8, some 0, none, none, 1⟩ (by decide) rfl).1 0
    ⟨5, none, some 1, some 2, 0⟩ rfl rfl).2 rfl

theorem rootGo_spec {h : Heap T} (hwf : wf h = true) :
    ∀ (n : Nat) (nd : Node T), h[n]? = some nd → ∀ fuel, n < fuel →
    ∃ (r : Nat) (rd : Node T), rootGo h fuel n = some r ∧ r ≤ n ∧
      h[r]? = some rd ∧ rd.father = none ∧
      Relation.ReflTransGen (fatherStep h) n r ∧
      (∀ x, Relation.ReflTransGen (fatherStep h) n x →
        fatherOf h x = none → x = r) ∧
      (rootGo h fuel n = some n ↔ nd.father = none) := by
  intro n
  induction n using Nat.strong_induction_on with
  | _ n ih =>
    intro nd hn fuel hfuel
    obtain ⟨fuel, rfl⟩ : ∃ k, fuel = k + 1 := ⟨fuel - 1, by omega⟩
    have hfo : fatherOf h n = nd.father := fatherOf_eq h n nd hn
    cases hfa : nd.father with
    | none =>
      have hroot : rootGo h (fuel + 1) n = some n := by
        simp [rootGo, hfo, hfa]
      refine ⟨n, nd, hroot, le_refl n, hn, hfa, Relation.ReflTransGen.refl,
        ?_, by simp [hroot, hfa]⟩
      intro x hx hxf
      rcases Relation.ReflTransGen.cases_head hx with heq | ⟨c, hc, -⟩
      · exact heq.symm
      · rw [fatherStep, hfo, hfa] at hc
        cases hc
    | some f =>
      have hfof : fatherOf h n = some f := hfo.trans hfa
      have hflt : f < n := (wf_father hwf hfof).1
      have hflen : f < h.length := wf_father_valid hwf hfof
      obtain ⟨fd, hfd⟩ : ∃ fd, h[f]? = some fd :=
        ⟨_, List.getElem?_eq_getElem hflen⟩
      obtain ⟨r, rd, hr, hrle, hrd, hrdf, hchain, huniq, -⟩ :=
        ih f hflt fd hfd fuel (by omega)
      have hroot : rootGo h (fuel + 1) n = rootGo h fuel f := by
        simp [rootGo, hfo, hfa]
      refine ⟨r, rd, by rw [hroot]; exact hr, by omega, hrd, hrdf,
        Relation.ReflTransGen.head hfof hchain, ?_, ?_⟩
      · intro x hx hxf
        rcases Relation.ReflTransGen.cases_head hx with heq | ⟨c, hc, hcx⟩
        · rw [← heq, hfof] at hxf
          cases hxf
        · have hcf : c = f := Option.some.inj (hc.symm.trans hfof)
          subst hcf
          exact huniq x hcx hxf
      · rw [hroot, hr]
        constructor
        · intro he
          have : r = n := Option.some.inj he
          omega
        · intro he
          cases he

/-- C8: the `root` getter walks the father chain to the unique fatherless
node above the receiver; the result always satisfies `isRoot`, and it equals
the receiver exactly when the receiver has no father. -/
theorem root_spec {T : Type} (h : Heap T) (n : Nat) (nd : Node T)
    (hwf : wf h = true) (hn : h[n]? = some nd) :
    ∃ r : Nat, rootOf h n = some r ∧ isRoot h r = true ∧
      Relation.ReflTransGen (fatherStep h) n r ∧
      (∀ x, Relation.ReflTransGen (fatherStep h) n x →
        isRoot h x = true → x = r) ∧
      (rootOf h n = some n ↔ nd.father = none) := by
  obtain ⟨r, rd, hr, -, hrd, hrdf, hchain, huniq, hiff⟩ :=
    rootGo_spec hwf n nd hn (n + 1) (by omega)
  refine ⟨r, hr, ?_, hchain, ?_, hiff⟩
  · rw [isRoot, fatherOf_eq h r rd hrd, hrdf]
    rfl
  · intro x hx hxr
    refine huniq x hx ?_
    rw [isRoot] at hxr
    exact Option.isNone_iff_eq_none.mp hxr

/-- Witness for C8 on the concrete heap: the root above node 1 is node 0. -/
theorem root_spec_witness : rootOf demoHeap 1 = some 0 := by
  obtain ⟨r, hr, -, -, huniq, -⟩ :=
    root_spec demoHeap 1 ⟨3, some 0, none, none, 1⟩ (by decide) rfl
  have h0 : (0 : Nat) = r :=
    huniq 0 (Relation.ReflTransGen.single (by decide)) (by decide)
  rw [hr, ← h0]

theorem ancestorGo_none (h : Heap T) (t : Option Nat) :
    ∀ fuel, ancestorGo h t fuel none = false := by
  intro fuel
  cases fuel <;> rfl

theorem ancestorGo_spec {h : Heap T} (hwf : wf h = true) (c : Nat) :
    ∀ m, m < h.length → ∀ fuel, m < fuel →
    (ancestorGo h (some c) fuel (some m) = true ↔
      Relation.ReflTransGen (fatherStep h) m c) := by
  intro m
  induction m using Nat.strong_induction_on with
  | _ m ih =>
    intro hmlen fuel hfuel
    obtain ⟨fuel, rfl⟩ : ∃ k, fuel = k + 1 := ⟨fuel - 1, by omega⟩
    by_cases hmc : c = m
    · subst hmc
      exact iff_of_true (by simp [ancestorGo]) Relation.ReflTransGen.refl
    · have hstep : ancestorGo h (some c) (fuel + 1) (some m) =
          ancestorGo h (some c) fuel (fatherOf h m) := by
        rw [ancestorGo,
          if_neg (show ¬((some c : Option Nat) = some m) by simp [hmc])]
      rw [hstep]
      cases hf : fatherOf h m with
      | none =>
        rw [ancestorGo_none]
        constructor
        · intro hfalse
          cases hfalse
        · intro hrt
          rcases Relation.ReflTransGen.cases_head hrt with heq | ⟨y, hy, -⟩
          · exact absurd heq.symm hmc
          · rw [fatherStep, hf] at hy
            cases hy
      | some f =>
        have hflt : f < m := (wf_father hwf hf).1
        have hflen : f < h.length := wf_father_valid hwf hf
        rw [ih f hflt hflen fuel (by omega)]
        constructor
        · intro hrt
          exact Relation.ReflTransGen.head hf hrt
        · intro hrt
          rcases Relation.ReflTransGen.cases_head hrt with heq | ⟨y, hy, hyc⟩
          · exact absurd heq.symm hmc
          · have hyf : y = f := Option.some.inj (hy.symm.trans hf)
            subst hyf
            exact hyc

theorem ancestor_true_iff {h : Heap T} (hwf : wf h = true) {n : Nat}
    {nd : Node T} (hn : h[n]? = some nd) (c : Nat) :
    ancestor h n (some c) = true ↔ Relation.TransGen (fatherStep h) n c := by
  have hfo : fatherOf h n = nd.father := fatherOf_eq h n nd hn
  rw [ancestor]
  cases hfa : nd.father with
  | none =>
    rw [hfo, hfa, ancestorGo_none]
    constructor
    · intro hfalse
      cases hfalse
    · intro htg
      obtain ⟨y, hy, -⟩ := Relation.TransGen.head'_iff.mp htg
      rw [fatherStep, hfo, hfa] at hy
      cases hy
  | some f =>
    have hnlen : n < h.length := (List.getElem?_eq_some.mp hn).1
    have hfof : fatherOf h n = some f := hfo.trans hfa
    have hflt : f < n := (wf_father hwf hfof).1
    have hflen : f < h.length := wf_father_valid hwf hfof
    rw [hfo, hfa, ancestorGo_spec hwf c f hflen h.length (by omega),
      Relation.TransGen.head'_iff]
    constructor
    · intro hrt
      exact ⟨f, hfof, hrt⟩
    · rintro ⟨y, hy, hyc⟩
      have hyf : y = f := Option.some.inj (hy.symm.trans hfof)
      subst hyf
      exact hyc

/-- C9: `ancestor(candidate)` is true exactly when the candidate lies on the
proper father chain of the receiver; a node is never its own ancestor
candidate, and a fatherless receiver answers false for every candidate. -/
theorem ancestor_spec {T : Type} (h : Heap T) (n : Nat) (nd : Node T)
    (hwf : wf h = true) (hn : h[n]? = some nd) :
    (∀ c, ancestor h n (some c) = true ↔
      Relation.TransGen (fatherStep h) n c) ∧
    ancestor h n (some n) = false ∧
    (nd.father = none → ∀ t, ancestor h n t = false) := by
  refine ⟨fun c => ancestor_true_iff hwf hn c, ?_, ?_⟩
  · cases hb : ancestor h n (some n) with
    | false => rfl
    | true =>
      have htg := (ancestor_true_iff hwf hn n).mp hb
      exact absurd (transGen_fatherStep_lt hwf htg) (lt_irrefl n)
  · intro hfa t
    rw [ancestor, fatherOf_eq h n nd hn, hfa, ancestorGo_none]

/-- Witness for C9 on the concrete heap: node 0 is an ancestor of node 1 and
the theorem's characterization applies there. -/
theorem ancestor_spec_witness :
    ancestor demoHeap 1 (some 0) = true ↔
      Relation.TransGen (fatherStep demoHeap) 1 0 :=
  (ancestor_spec demoHeap 1 ⟨3, some 0, none, none, 1⟩ (by decide) rfl).1 0

/-! Correctness of the explicit-stack search in `descendant`. -/

theorem mem_childPushes {h : Heap T} {m c : Nat} :
    some c ∈ childPushes h m ↔ childStep h m c := by
  cases hm : h[m]? with
  | none => simp [childPushes, childStep, leftOf, rightOf, hm]
  | some nd =>
    cases hl : nd.left <;> cases hr : nd.right <;>
      simp [childPushes, childStep, leftOf, rightOf, hm, hl, hr, eq_comm]

theorem none_not_mem_childPushes {h : Heap T} {m : Nat} :
    (none : Option Nat) ∉ childPushes h m := by
  cases hm : h[m]? with
  | none => simp [childPushes, hm]
  | some nd =>
    cases hl : nd.left <;> cases hr : nd.right <;>
      simp [childPushes, hm, hl, hr]

theorem owt_pos (h : Heap T) (e : Option Nat) : 0 < owt h e := by
  cases e with
  | none => simp [owt]
  | some m => exact pow_pos (by norm_num) _

theorem owt_le (h : Heap T) (e : Option Nat) : owt h e ≤ 3 ^ h.length := by
  cases e with
  | none => exact Nat.one_le_pow _ _ (by norm_num)
  | some m => exact Nat.pow_le_pow_right (by norm_num) (Nat.sub_le _ _)

theorem smeasure_nil (h : Heap T) : smeasure h [] = 0 := rfl

theorem smeasure_cons (h : Heap T) (e : Option Nat) (s : List (Option Nat)) :
    smeasure h (e :: s) = owt h e + smeasure h s := by
  simp [smeasure]

theorem smeasure_append (h : Heap T) (s t : List (Option Nat)) :
    smeasure h (s ++ t) = smeasure h s + smeasure h t := by
  simp [smeasure]

theorem smeasure_reverse (h : Heap T) (s : List (Option Nat)) :
    smeasure h s.reverse = smeasure h s := by
  simp [smeasure, List.map_reverse, List.sum_reverse]

/-- Popping a valid node and pushing its children strictly shrinks the
weight: the children live strictly deeper in the id order. -/
theorem childPushes_measure {h : Heap T} (hwf : wf h = true) {m : Nat}
    (hm : m < h.length) :
    smeasure h (childPushes h m) < owt h (some m) := by
  obtain ⟨nd, hnd⟩ : ∃ nd, h[m]? = some nd :=
    ⟨_, List.getElem?_eq_getElem hm⟩
  have hcl : ∀ c, childStep h m c →
      owt h (some c) ≤ 3 ^ (h.length - m - 1) := by
    intro c hcs
    obtain ⟨hmc, hclen, -⟩ := wf_child hwf hcs
    exact Nat.pow_le_pow_right (by norm_num) (by omega)
  have hexp : 3 ^ (h.length - m) = 3 ^ (h.length - m - 1) * 3 := by
    rw [← pow_succ]
    congr 1
    omega
  have hpos : 0 < 3 ^ (h.length - m - 1) := pow_pos (by norm_num) _
  cases hl : nd.left with
  | none =>
    cases hr : nd.right with
    | none =>
      have : childPushes h m = [] := by simp [childPushes, hnd, hl, hr]
      rw [this, smeasure_nil]
      exact owt_pos h _
    | some r =>
      have hps : childPushes h m = [some r] := by simp [childPushes, hnd, hl, hr]
      have hcs : childStep h m r := Or.inr (by rw [rightOf_eq h m nd hnd]; exact hr)
      have hre := hcl r hcs
      rw [hps, smeasure_cons, smeasure_nil]
      simp only [owt] at hre ⊢
      rw [hexp]
      omega
  | some l =>
    have hcsl : childStep h m l := Or.inl (by rw [leftOf_eq h m nd hnd]; exact hl)
    have hle := hcl l hcsl
    cases hr : nd.right with
    | none =>
      have hps : childPushes h m = [some l] := by simp [childPushes, hnd, hl, hr]
      rw [hps, smeasure_cons, smeasure_nil]
      simp only [owt] at hle ⊢
      rw [hexp]
      omega
    | some r =>
      have hps : childPushes h m = [some l, some r] := by
        simp [childPushes, hnd, hl, hr]
      have hcsr : childStep h m r := Or.inr (by rw [rightOf_eq h m nd hnd]; exact hr)
      have hre := hcl r hcsr
      rw [hps, smeasure_cons, smeasure_cons, smeasure_nil]
      simp only [owt] at hle hre ⊢
      rw [hexp]
      omega

/-- One unfolding step of the `descendant` loop on a popped entry that is
not the candidate. -/
theorem descGo_cons (h : Heap T) (t : Option Nat) (fuel : Nat)
    (node : Option Nat) (rest : List (Option Nat)) (hne : node ≠ t) :
    descGo h t (fuel + 1) (node :: rest) =
      descGo h t fuel ((popPushes h node).reverse ++ rest) := by
  have hunf : descGo h t (fuel + 1) (node :: rest) =
      if node = t then true
      else descGo h t fuel ((popPushes h node).reverse ++ rest) := rfl
  rw [hunf, if_neg hne]

/-- Loop invariant of `descendant` for a non-null candidate: with enough fuel
the loop answers true exactly when some stacked non-null node reaches the
candidate through child links (possibly in zero steps). -/
theorem descGo_some_iff {h : Heap T} (hwf : wf h = true) (c : Nat) :
    ∀ fuel S, (∀ x, some x ∈ S → x < h.length) → smeasure h S ≤ fuel →
    (descGo h (some c) fuel S = true ↔
      ∃ m, some m ∈ S ∧ Relation.ReflTransGen (childStep h) m c) := by
  intro fuel
  induction fuel with
  | zero =>
    intro S hok hms
    have hS : S = [] := by
      cases S with
      | nil => rfl
      | cons e s =>
        exfalso
        have hpos := owt_pos h e
        rw [smeasure_cons] at hms
        omega
    subst hS
    simp [descGo]
  | succ fuel ih =>
    intro S hok hms
    cases S with
    | nil => simp [descGo]
    | cons node rest =>
      by_cases hnt : node = some c
      · subst hnt
        exact iff_of_true (by simp [descGo])
          ⟨c, List.mem_cons_self _ _, Relation.ReflTransGen.refl⟩
      · rw [descGo_cons h (some c) fuel node rest hnt]
        cases node with
        | none =>
          have hok' : ∀ x, some x ∈ rest → x < h.length := fun x hx =>
            hok x (List.mem_cons_of_mem _ hx)
          have hms' : smeasure h rest ≤ fuel := by
            rw [smeasure_cons] at hms
            have := owt_pos h (none : Option Nat)
            omega
          rw [show ((popPushes h none).reverse ++ rest) = rest by
            simp [popPushes]]
          rw [ih rest hok' hms']
          constructor
          · rintro ⟨m, hm, hrt⟩
            exact ⟨m, List.mem_cons_of_mem _ hm, hrt⟩
          · rintro ⟨m, hm, hrt⟩
            rcases List.mem_cons.mp hm with heq | hm'
            · exact absurd heq (by simp)
            · exact ⟨m, hm', hrt⟩
        | some m =>
          have hmlen : m < h.length := hok m (List.mem_cons_self _ _)
          have hok' : ∀ x, some x ∈ (childPushes h m).reverse ++ rest →
              x < h.length := by
            intro x hx
            rcases List.mem_append.mp hx with hx | hx
            · exact (wf_child hwf (mem_childPushes.mp (List.mem_reverse.mp hx))).2.1
            · exact hok x (List.mem_cons_of_mem _ hx)
          have hms' : smeasure h ((childPushes h m).reverse ++ rest) ≤ fuel := by
            rw [smeasure_append, smeasure_reverse]
            rw [smeasure_cons] at hms
            have hdec := childPushes_measure hwf hmlen
            omega
          rw [show popPushes h (some m) = childPushes h m from rfl]
          rw [ih _ hok' hms']
          constructor
          · rintro ⟨x, hx, hrt⟩
            rcases List.mem_append.mp hx with hx | hx
            · exact ⟨m, List.mem_cons_self _ _,
                Relation.ReflTransGen.head
                  (mem_childPushes.mp (List.mem_reverse.mp hx)) hrt⟩
            · exact ⟨x, List.mem_cons_of_mem _ hx, hrt⟩
          · rintro ⟨x, hx, hrt⟩
            rcases List.mem_cons.mp hx with heq | hx'
            · have hxm : x = m := Option.some.inj heq
              subst hxm
              rcases Relation.ReflTransGen.cases_head hrt with heq2 | ⟨y, hy, hyc⟩
              · exact absurd (by rw [heq2]) hnt
              · exact ⟨y, List.mem_append_left _
                  (List.mem_reverse.mpr (mem_childPushes.mpr hy)), hyc⟩
            · exact ⟨x, List.mem_append_right _ hx', hrt⟩

/-- Loop invariant of `descendant` for the null candidate: the comparison can
only succeed on a null entry already in the stack, since every later push is
a non-null child. -/
theorem descGo_none_iff {h : Heap T} (hwf : wf h = true) :
    ∀ fuel S, (∀ x, some x ∈ S → x < h.length) → smeasure h S ≤ fuel →
    (descGo h none fuel S = true ↔ (none : Option Nat) ∈ S) := by
  intro fuel
  induction fuel with
  | zero =>
    intro S hok hms
    have hS : S = [] := by
      cases S with
      | nil => rfl
      | cons e s =>
        exfalso
        have hpos := owt_pos h e
        rw [smeasure_cons] at hms
        omega
    subst hS
    simp [descGo]
  | succ fuel ih =>
    intro S hok hms
    cases S with
    | nil => simp [descGo]
    | cons node rest =>
      cases node with
      | none =>
        exact iff_of_true (by simp [descGo]) (List.mem_cons_self _ _)
      | some m =>
        have hnt : (some m : Option Nat) ≠ none := by simp
        have hstep : descGo h none (fuel + 1) (some m :: rest) =
            descGo h none fuel ((childPushes h m).reverse ++ rest) := by
          rw [descGo_cons h none fuel (some m) rest hnt]
          rw [show popPushes h (some m) = childPushes h m from rfl]
        have hmlen : m < h.length := hok m (List.mem_cons_self _ _)
        have hok' : ∀ x, some x ∈ (childPushes h m).reverse ++ rest →
            x < h.length := by
          intro x hx
          rcases List.mem_append.mp hx with hx | hx
          · exact (wf_child hwf (mem_childPushes.mp (List.mem_reverse.mp hx))).2.1
          · exact hok x (List.mem_cons_of_mem _ hx)
        have hms' : smeasure h ((childPushes h m).reverse ++ rest) ≤ fuel := by
          rw [smeasure_append, smeasure_reverse]
          rw [smeasure_cons] at hms
          have hdec := childPushes_measure hwf hmlen
          omega
        rw [hstep, ih _ hok' hms']
        constructor
        · intro hmem
          rcases List.mem_append.mp hmem with hx | hx
          · exact absurd (List.mem_reverse.mp hx) none_not_mem_childPushes
          · exact List.mem_cons_of_mem _ hx
        · intro hmem
          rcases List.mem_cons.mp hmem with heq | hx
          · exact absurd heq.symm hnt
          · exact List.mem_append_right _ hx

/-- The instrumented loop computes the same boolean as the source loop. -/
theorem descGoLog_fst (h : Heap T) (t : Option Nat) :
    ∀ fuel S log, (descGoLog h t fuel S log).1 = descGo h t fuel S := by
  intro fuel
  induction fuel with
  | zero => intro S log; rfl
  | succ fuel ih =>
    intro S log
    cases S with
    | nil => rfl
    | cons node rest =>
      by_cases hnt : node = t
      · subst hnt
        simp [descGoLog, descGo]
      · have h1 : descGoLog h t (fuel + 1) (node :: rest) log =
            descGoLog h t fuel ((popPushes h node).reverse ++ rest)
              (log ++ popPushes h node) := by
          have hunf : descGoLog h t (fuel + 1) (node :: rest) log =
              if node = t then (true, log)
              else descGoLog h t fuel ((popPushes h node).reverse ++ rest)
                (log ++ popPushes h node) := rfl
          rw [hunf, if_neg hnt]
        rw [h1, ih, descGo_cons h t fuel node rest hnt]

/-- The push log only ever grows, and everything appended after the initial
log is a non-null child. -/
theorem descGoLog_log (h : Heap T) (t : Option Nat) :
    ∀ fuel S log, ∃ tail, (descGoLog h t fuel S log).2 = log ++ tail ∧
      ∀ e ∈ tail, e ≠ none := by
  intro fuel
  induction fuel with
  | zero => intro S log; exact ⟨[], by simp [descGoLog], by simp⟩
  | succ fuel ih =>
    intro S log
    cases S with
    | nil => exact ⟨[], by simp [descGoLog], by simp⟩
    | cons node rest =>
      by_cases hnt : node = t
      · subst hnt
        exact ⟨[], by simp [descGoLog], by simp⟩
      · have hunf : descGoLog h t (fuel + 1) (node :: rest) log =
            descGoLog h t fuel ((popPushes h node).reverse ++ rest)
              (log ++ popPushes h node) := by
          have hx : descGoLog h t (fuel + 1) (node :: rest) log =
              if node = t then (true, log)
              else descGoLog h t fuel ((popPushes h node).reverse ++ rest)
                (log ++ popPushes h node) := rfl
          rw [hx, if_neg hnt]
        obtain ⟨tail, htail, hne⟩ :=
          ih ((popPushes h node).reverse ++ rest) (log ++ popPushes h node)
        refine ⟨popPushes h node ++ tail, ?_, ?_⟩
        · rw [hunf, htail, List.append_assoc]
        · intro e he
          rcases List.mem_append.mp he with he | he
          · cases node with
            | none => simp [popPushes] at he
            | some m =>
              intro heq
              rw [heq] at he
              exact none_not_mem_childPushes he
          · exact hne e he

theorem descendant_eq (h : Heap T) {n : Nat} {nd : Node T}
    (hn : h[n]? = some nd) (t : Option Nat) :
    descendant h n t = descGo h t (3 ^ (h.length + 1)) [nd.right, nd.left] := by
  simp [descendant, hn]

/-- The two seed entries are valid ids when non-null, and the seed stack fits
in the fuel budget. -/
theorem seed_ok {h : Heap T} (hwf : wf h = true) {n : Nat} {nd : Node T}
    (hn : h[n]? = some nd) :
    (∀ x, some x ∈ [nd.right, nd.left] → x < h.length) ∧
    smeasure h [nd.right, nd.left] ≤ 3 ^ (h.length + 1) := by
  constructor
  · intro x hx
    have hcs : childStep h n x := by
      rcases List.mem_cons.mp hx with heq | hx2
      · exact Or.inr (by rw [rightOf_eq h n nd hn]; exact heq.symm)
      · rcases List.mem_cons.mp hx2 with heq | hx3
        · exact Or.inl (by rw [leftOf_eq h n nd hn]; exact heq.symm)
        · exact absurd hx3 (List.not_mem_nil _)
    exact (wf_child hwf hcs).2.1
  · have h1 := owt_le h nd.right
    have h2 := owt_le h nd.left
    rw [smeasure_cons, smeasure_cons, smeasure_nil, pow_succ]
    omega

theorem descendant_true_iff {h : Heap T} (hwf : wf h = true) {n : Nat}
    {nd : Node T} (hn : h[n]? = some nd) (c : Nat) :
    descendant h n (some c) = true ↔
      Relation.TransGen (childStep h) n c := by
  rw [descendant_eq h hn (some c)]
  obtain ⟨hok, hms⟩ := seed_ok hwf hn
  rw [descGo_some_iff hwf c _ _ hok hms, Relation.TransGen.head'_iff]
  constructor
  · rintro ⟨m, hm, hrt⟩
    refine ⟨m, ?_, hrt⟩
    rcases List.mem_cons.mp hm with heq | hm2
    · exact Or.inr (by rw [rightOf_eq h n nd hn]; exact heq.symm)
    · rcases List.mem_cons.mp hm2 with heq | hm3
      · exact Or.inl (by rw [leftOf_eq h n nd hn]; exact heq.symm)
      · exact absurd hm3 (List.not_mem_nil _)
  · rintro ⟨b, hb, hrt⟩
    refine ⟨b, ?_, hrt⟩
    cases hb with
    | inl hl =>
      rw [leftOf_eq h n nd hn] at hl
      rw [← hl]
      exact List.mem_cons_of_mem _ (List.mem_cons_self _ _)
    | inr hr =>
      rw [rightOf_eq h n nd hn] at hr
      rw [← hr]
      exact List.mem_cons_self _ _

/-- C3 (amended): for every node n and non-empty candidate node c,
`descendant` answers true exactly when c is a proper descendant of n through
child links (n itself never counts); the two seeds `this.left` and
`this.right` are pushed unconditionally — possibly empty — and every push
after them is of a non-empty child. -/
theorem descendant_search_spec {T : Type} (h : Heap T) (n c : Nat)
    (nd cd : Node T) (hwf : wf h = true) (hn : h[n]? = some nd)
    (hc : h[c]? = some cd) :
    (descendant h n (some c) = true ↔
      Relation.TransGen (childStep h) n c) ∧
    descendant h n (some n) = false ∧
    (∀ t, ∃ tail, descendantPushes h n t = nd.left :: nd.right :: tail ∧
      ∀ e ∈ tail, e ≠ none) := by
  refine ⟨descendant_true_iff hwf hn c, ?_, ?_⟩
  · cases hb : descendant h n (some n) with
    | false => rfl
    | true =>
      have htg := (descendant_true_iff hwf hn n).mp hb
      exact absurd (transGen_childStep_lt hwf htg) (lt_irrefl n)
  · intro t
    obtain ⟨tail, htail, hne⟩ := descGoLog_log h t (3 ^ (h.length + 1))
      [nd.right, nd.left] [nd.left, nd.right]
    refine ⟨tail, ?_, hne⟩
    have hdl : descendantLog h n t =
        descGoLog h t (3 ^ (h.length + 1)) [nd.right, nd.left]
          [nd.left, nd.right] := by
      simp [descendantLog, hn]
    rw [descendantPushes, hdl, htail]
    rfl

/-- Counterexample to C3 as stated: on `ceHeap`, node 0 has an empty right
slot; searching for its non-empty left child (node 1) still pushes the empty
right seed onto the explicit stack, so the search does not push only
non-empty children. -/
theorem descendant_pushes_empty_seed :
    descendant ceHeap 0 (some 1) = true ∧
    descendantPushes ceHeap 0 (some 1) = [some 1, none] ∧
    (none : Option Nat) ∈ descendantPushes ceHeap 0 (some 1) := by
  refine ⟨by decide, by decide, by decide⟩

/-- Witness for C3 (amended) on the concrete heap: node 1 is a proper
descendant of the root 0 and the characterization applies. -/
theorem descendant_search_spec_witness :
    descendant demoHeap 0 (some 1) = true ↔
      Relation.TransGen (childStep demoHeap) 0 1 :=
  (descendant_search_spec demoHeap 0 1 ⟨5, none, some 1, some 2, 0⟩
    ⟨3, some 0, none, none, 1⟩ (by decide) rfl rfl).1

/-- C10: with a null candidate, `descendant` answers true exactly when one of
the two unconditionally pushed seeds is empty, i.e. when the receiver misses
a child; in particular a leaf reports the empty node as its descendant while
a node with both children present does not. -/
theorem descendant_null_candidate {T : Type} (h : Heap T) (n : Nat)
    (nd : Node T) (hwf : wf h = true) (hn : h[n]? = some nd) :
    (descendant h n none = true ↔ (nd.left = none ∨ nd.right = none)) ∧
    (isLeaf h n = true → descendant h n none = true) ∧
    (nd.left ≠ none → nd.right ≠ none → descendant h n none = false) := by
  obtain ⟨hok, hms⟩ := seed_ok hwf hn
  have hmain : descendant h n none = true ↔
      (nd.left = none ∨ nd.right = none) := by
    rw [descendant_eq h hn none, descGo_none_iff hwf _ _ hok hms]
    constructor
    · intro hmem
      rcases List.mem_cons.mp hmem with heq | hm2
      · exact Or.inr heq.symm
      · rcases List.mem_cons.mp hm2 with heq | hm3
        · exact Or.inl heq.symm
        · exact absurd hm3 (List.not_mem_nil _)
    · intro hor
      cases hor with
      | inl hl =>
        rw [← hl]
        exact List.mem_cons_of_mem _ (List.mem_cons_self _ _)
      | inr hr =>
        rw [← hr]
        exact List.mem_cons_self _ _
  refine ⟨hmain, ?_, ?_⟩
  · intro hleaf
    rw [isLeaf, Bool.and_eq_true, Option.isNone_iff_eq_none,
      Option.isNone_iff_eq_none, leftOf_eq h n nd hn,
      rightOf_eq h n nd hn] at hleaf
    exact hmain.mpr (Or.inl hleaf.1)
  · intro hl hr
    cases hb : descendant h n none with
    | false => rfl
    | true =>
      rcases hmain.mp hb with hx | hx
      · exact absurd hx hl
      · exact absurd hx hr

/-- Witness for C10 on the concrete heap: the leaf node 1 reports the empty
node as a descendant. -/
theorem descendant_null_candidate_witness :
    descendant demoHeap 1 none = true :=
  (descendant_null_candidate demoHeap 1 ⟨3, some 0, none, none, 1⟩
    (by decide) rfl).2.1 (by decide)

/-- C2: for two nodes of the same tree, `a.ancestor(b)` and `b.descendant(a)`
agree: both state that a lies strictly below b through the converse link
relations. -/
theorem ancestor_descendant_symmetry {T : Type} (h : Heap T) (a b : Nat)
    (nda ndb : Node T) (hwf : wf h = true) (ha : h[a]? = some nda)
    (hb : h[b]? = some ndb) (hsame : rootOf h a = rootOf h b) :
    ancestor h a (some b) = descendant h b (some a) := by
  have h1 := ancestor_true_iff hwf ha b
  have h2 := descendant_true_iff hwf hb a
  have h3 : Relation.TransGen (fatherStep h) a b ↔
      Relation.TransGen (childStep h) b a := by
    constructor
    · intro htg
      exact Relation.transGen_swap.mp
        (Relation.TransGen.mono (fun x y hxy => (wf_father hwf hxy).2) htg)
    · intro htg
      exact Relation.TransGen.mono (fun x y hxy => (wf_child hwf hxy).2.2)
        (Relation.transGen_swap.mpr htg)
  rw [Bool.eq_iff_iff, h1, h2, h3]

/-- Witness for C2 on the concrete heap: node 0 is an ancestor of node 1 and
node 1 is a descendant of node 0, and both methods agree. -/
theorem ancestor_descendant_symmetry_witness :
    ancestor demoHeap 1 (some 0) = descendant demoHeap 0 (some 1) :=
  ancestor_descendant_symmetry demoHeap 1 0 ⟨3, some 0, none, none, 1⟩
    ⟨5, none, some 1, some 2, 0⟩ (by decide) rfl rfl (by decide)

/-- C4: in the source enum `TraversalMethod`, the explicit `PREORDER = 0`
resets the member counter, so ASC and PREORDER are the same number (0), DESC
and POSTORDER are the same number (1), and INORDER is 2.  Any dispatch on the
enum value therefore runs the preorder walk for ASC — on the ordered demo
tree, ASC yields the preorder sequence [5, 3, 8], not the inorder sequence
[3, 5, 8], and DESC yields the postorder sequence, not the mirror of the
inorder one.  This contradicts the stated meaning of ASC/DESC (ascending /
descending order). -/
theorem asc_aliases_preorder :
    TraversalMethod.ASC = TraversalMethod.PREORDER ∧
    TraversalMethod.DESC = TraversalMethod.POSTORDER ∧
    TraversalMethod.ASC ≠ TraversalMethod.INORDER ∧
    (∀ dispatch : TraversalMethod → List Nat,
      dispatch TraversalMethod.ASC = dispatch TraversalMethod.PREORDER) ∧
    traverse demoTree TraversalMethod.ASC = preorder demoTree ∧
    traverse demoTree TraversalMethod.ASC = [5, 3, 8] ∧
    inorder demoTree = [3, 5, 8] ∧
    traverse demoTree TraversalMethod.ASC ≠ inorder demoTree ∧
    traverse demoTree TraversalMethod.DESC = postorder demoTree ∧
    traverse demoTree TraversalMethod.DESC ≠ (inorder demoTree).reverse := by
  exact ⟨rfl, rfl, by decide, fun dispatch => rfl, rfl, by decide, by decide,
    by decide, rfl, by decide⟩

end ElementaryJS
